import Mathlib

/-!
# Verification of the `quantileSeq` order-statistic / quantile engine

A shallow embedding of `src/src/function/statistics/quantileSeq.js`.

Numeric values (native floating-point numbers and arbitrary-precision
decimals) are idealized as exact rationals (`ℚ`); dimensioned quantities
(`Unit`) are a magnitude tagged with a unit name.  Fallible operations
return `Except MError`.  The external collaborators (`add`, `multiply`,
`compare`, `partitionSelect`, `flatten`, the `BigNumber` constructor) are
injected dependencies whose sources are not part of the excerpt; they are
modelled from the specification of their interfaces and marked as such.
-/

/-- The kinds of runtime errors thrown by the engine (JS `Error` and
`TypeError`). -/
inductive MError where
  | error : String → MError
  | typeError : String → MError
deriving DecidableEq, Repr

/-- A JS runtime value as seen by `quantileSeq`: a native number, a
`BigNumber` (arbitrary-precision decimal), a `Unit` (magnitude tagged with a
unit name), any other unsupported kind of value, or `undefined` (the result
of out-of-range array indexing). -/
inductive MValue where
  | num : ℚ → MValue
  | big : ℚ → MValue
  | unit : ℚ → String → MValue
  | other : String → MValue
  | jsUndefined : MValue
deriving DecidableEq, Repr

/-- A possibly nested input collection: an n-dimensional array whose leaves
are runtime values. -/
inductive MColl where
  | leaf : MValue → MColl
  | node : List MColl → MColl

mutual

/-- Modelled from the spec: `flatten(nested) -> flat sequence` — deterministic
depth-first, left-to-right linearization of a nested collection (the
`flatten` collaborator from `utils/array.js` is not part of the excerpt). -/
def mflatten : MColl → List MValue
  | .leaf v => [v]
  | .node cs => mflattenList cs

/-- Depth-first, left-to-right flattening of a list of nested collections. -/
def mflattenList : List MColl → List MValue
  | [] => []
  | c :: cs => mflatten c ++ mflattenList cs

end

/-- Sign of a rational, as the `{-1, 0, 1}` result of a comparison. -/
def qsign (q : ℚ) : Int :=
  if q < 0 then -1 else if q = 0 then 0 else 1

/-- Modelled from the spec: the `compare(a, b) -> {-1,0,1}` arithmetic
capability — defined across native numbers and BigNumbers (which
interoperate), and between Units of the same unit; any other combination is
a type error of the collaborator. -/
def mcompare : MValue → MValue → Except MError Int
  | .num a, .num b => .ok (qsign (a - b))
  | .num a, .big b => .ok (qsign (a - b))
  | .big a, .num b => .ok (qsign (a - b))
  | .big a, .big b => .ok (qsign (a - b))
  | .unit a u, .unit b v =>
      if u = v then .ok (qsign (a - b))
      else .error (.typeError "Cannot compare units with different base")
  | _, _ => .error (.typeError "Unexpected type of argument in function compare")

/-- Modelled from the spec: the `add(a, b) -> value` arithmetic capability —
numbers and BigNumbers add (BigNumber dominating), Units of the same unit
add; any other combination is an error of the collaborator. -/
def madd : MValue → MValue → Except MError MValue
  | .num a, .num b => .ok (.num (a + b))
  | .num a, .big b => .ok (.big (a + b))
  | .big a, .num b => .ok (.big (a + b))
  | .big a, .big b => .ok (.big (a + b))
  | .unit a u, .unit b v =>
      if u = v then .ok (.unit (a + b) u)
      else .error (.error "Units do not match")
  | _, _ => .error (.typeError "Unexpected type of argument in function add")

/-- Modelled from the spec: the `multiply(a, b) -> value` capability, used
here to scale a value by a dimensionless weight — numbers and BigNumbers
multiply (BigNumber dominating), a Unit scaled by a number or BigNumber
keeps its unit. -/
def mmultiply : MValue → MValue → Except MError MValue
  | .num a, .num b => .ok (.num (a * b))
  | .num a, .big b => .ok (.big (a * b))
  | .big a, .num b => .ok (.big (a * b))
  | .big a, .big b => .ok (.big (a * b))
  | .unit a u, .num b => .ok (.unit (a * b) u)
  | .unit a u, .big b => .ok (.unit (a * b) u)
  | _, _ => .error (.typeError "Unexpected type of argument in function multiply")

/-- The kinds of sequence values `quantileSeq` supports:
`Number`, `BigNumber`, `Unit` (source line 13). -/
def isSupported : MValue → Bool
  | .num _ => true
  | .big _ => true
  | .unit _ _ => true
  | _ => false

/-- `validate` (source lines 52–56): a typed function accepting
`number | BigNumber | Unit` and returning its argument; any other value is
a type error. -/
def validate (x : MValue) : Except MError MValue :=
  if isSupported x then .ok x
  else .error (.typeError "Unexpected type of argument in function validate")

/-- Insert a value into a list which is kept ascending with respect to the
`compare` capability; comparison failures propagate. -/
def minsert (x : MValue) : List MValue → Except MError (List MValue)
  | [] => .ok [x]
  | y :: ys =>
      match mcompare x y with
      | .error e => .error e
      | .ok c =>
          if c ≤ 0 then .ok (x :: y :: ys)
          else
            match minsert x ys with
            | .error e => .error e
            | .ok r => .ok (y :: r)

/-- Sort a sequence ascending with respect to the `compare` capability
(insertion sort); comparison failures propagate. -/
def msort : List MValue → Except MError (List MValue)
  | [] => .ok []
  | x :: xs =>
      match msort xs with
      | .error e => .error e
      | .ok r => minsert x r

/-- Modelled from the spec: the selection primitive
`select(sequence, rank) -> value` (mathjs `partitionSelect`, not part of the
excerpt) — returns the element that would occupy position `rank` were the
sequence sorted ascending, and reorders the sequence so that every element
left of `rank` is ≤ it and every element right of it is ≥ it; realized here
by fully sorting the private sequence, which satisfies that partition
postcondition; defined only for `0 ≤ rank < length`. Returns the selected
value together with the reordered sequence (the in-place side effect made
explicit). -/
def partitionSelect (l : List MValue) (k : Int) : Except MError (MValue × List MValue) :=
  if k < 0 ∨ (l.length : Int) ≤ k then
    .error (.error "k out of bounds")
  else
    match msort l with
    | .error e => .error e
    | .ok s => .ok (s.getD k.toNat .jsUndefined, s)

/-- JS array indexing `l[i]`: the element at `i`, or `undefined` when out of
range. -/
def jsGetV (l : List MValue) (i : Int) : MValue :=
  if 0 ≤ i then l.getD i.toNat .jsUndefined else .jsUndefined

/-- JS truncation toward zero (the integer part used by the `%` remainder). -/
def jsTrunc (q : ℚ) : Int :=
  if 0 ≤ q then ⌊q⌋ else ⌈q⌉

/-- JS remainder `q % 1`: `q` minus its truncation toward zero. -/
def jsMod1 (q : ℚ) : ℚ :=
  q - jsTrunc q

/-- Whether an (idealized, exact) numeric value is an integer — the
`isInteger` capability on native numbers and the BigNumber `isInteger()`
method coincide under the exact-rational idealization. -/
def ratIsInt (q : ℚ) : Bool :=
  q.den = 1

/-- The abstract arithmetic-capability set plus the selection primitive, as
injected into the factory (source line 9):
`add`, `multiply`, `compare`, `partitionSelect`. -/
structure Caps where
  add : MValue → MValue → Except MError MValue
  multiply : MValue → MValue → Except MError MValue
  compare : MValue → MValue → Except MError Int
  pselect : List MValue → Int → Except MError (MValue × List MValue)

/-- The capability set as modelled from the spec for the concrete mathjs
collaborators. -/
def mathjsCaps : Caps :=
  { add := madd, multiply := mmultiply, compare := mcompare, pselect := partitionSelect }

/-- The `left`-recovery loop (source lines 213–218 and 252–257): starting
from the element at position `integerPart`, scan the preceding positions and
keep the maximum according to the `compare` capability. `pre` is the list of
scanned elements (positions `0 .. integerPart-1` of the flat sequence). -/
def scanGo (C : Caps) : List MValue → MValue → Except MError MValue
  | [], left => .ok left
  | x :: xs, left =>
      match C.compare x left with
      | .error e => .error e
      | .ok c => scanGo C xs (if 0 < c then x else left)

/-- `left = flat[k]` followed by the maximum-tracking scan of positions
`0 .. k-1` of the flat sequence (source lines 213–218). -/
def scanLeftMax (C : Caps) (flat : List MValue) (k : Nat) : Except MError MValue :=
  scanGo C (flat.take k) (jsGetV flat k)

/-- `add(multiply(left, w1), multiply(right, w2))` evaluated left to right
with the capability operations (source lines 225 and 265). -/
def interpCombine (C : Caps) (left right w1 w2 : MValue) : Except MError MValue :=
  match C.multiply left w1 with
  | .error e => .error e
  | .ok a =>
      match C.multiply right w2 with
      | .error e => .error e
      | .ok b => C.add a b

/-- The tail of both interpolating branches (source lines 221–225 and
260–265): validate `left` and `right`, then return
`add(multiply(left, w1), multiply(right, w2))`. -/
def interpFinish (C : Caps) (left right w1 w2 : MValue) : Except MError MValue :=
  match validate left with
  | .error e => .error e
  | .ok _ =>
      match validate right with
      | .error e => .error e
      | .ok _ => interpCombine C left right w1 w2

/-- The probability value handed to the scalar calculator: a native number
or a BigNumber (source `_quantileSeq` branches on `isNumber(prob)`). -/
inductive ProbVal where
  | pnum : ℚ → ProbVal
  | pbig : ℚ → ProbVal
deriving DecidableEq, Repr

/-- `_quantileSeq` (source lines 184–266): the scalar quantile calculator,
parameterized by the capability set `C`. Flattens the input, computes the
fractional rank `prob × (len − 1)`, and either returns the exact order
statistic or interpolates between the two adjacent order statistics,
selecting via `C.pselect` and recovering the left endpoint by the
maximum-tracking scan when the input is not sorted. -/
def _quantileSeq (C : Caps) (array : List MColl) (prob : ProbVal) (sorted : Bool) :
    Except MError MValue :=
  let flat := mflattenList array
  let len := flat.length
  if len = 0 then .error (.error "Cannot calculate quantile of an empty sequence")
  else
    match prob with
    | .pnum p =>
        let index := p * ((len : ℚ) - 1)
        let fracPart := jsMod1 index
        if fracPart = 0 then
          if sorted then
            match validate (jsGetV flat (jsTrunc index)) with
            | .error e => .error e
            | .ok value => .ok value
          else
            match C.pselect flat (jsTrunc index) with
            | .error e => .error e
            | .ok (value, _) =>
                match validate value with
                | .error e => .error e
                | .ok _ => .ok value
        else
          let integerPart : Int := ⌊index⌋
          if sorted then
            interpFinish C (jsGetV flat integerPart) (jsGetV flat (integerPart + 1))
              (.num (1 - fracPart)) (.num fracPart)
          else
            match C.pselect flat (integerPart + 1) with
            | .error e => .error e
            | .ok (right, flat2) =>
                match scanLeftMax C flat2 integerPart.toNat with
                | .error e => .error e
                | .ok left => interpFinish C left right (.num (1 - fracPart)) (.num fracPart)
    | .pbig p =>
        let index := p * ((len : ℚ) - 1)
        if ratIsInt index then
          let indexN : Int := ⌊index⌋
          if sorted then
            match validate (jsGetV flat indexN) with
            | .error e => .error e
            | .ok value => .ok value
          else
            match C.pselect flat indexN with
            | .error e => .error e
            | .ok (value, _) =>
                match validate value with
                | .error e => .error e
                | .ok _ => .ok value
        else
          let integerPart : ℚ := ⌊index⌋
          let fracPart := index - integerPart
          let integerPartNumber : Int := ⌊index⌋
          if sorted then
            interpFinish C (jsGetV flat integerPartNumber)
              (jsGetV flat (integerPartNumber + 1))
              (.big (1 - fracPart)) (.big fracPart)
          else
            match C.pselect flat (integerPartNumber + 1) with
            | .error e => .error e
            | .ok (right, flat2) =>
                match scanLeftMax C flat2 integerPartNumber.toNat with
                | .error e => .error e
                | .ok left => interpFinish C left right (.big (1 - fracPart)) (.big fracPart)

/-- Modelled from the spec: the `BigNumber` constructor used to re-wrap a
result of the arbitrary-precision branch (`new BigNumber(x)`, source lines
117 and 136) — exact on numbers and BigNumbers, an error on any other
value. -/
def toBigNumber : MValue → Except MError MValue
  | .num q => .ok (.big q)
  | .big q => .ok (.big q)
  | _ => .error (.error "Invalid BigNumber constructor argument")

/-- The second argument of the public function: a native number, a
BigNumber, or a collection of probability values (typed signature
`number | BigNumber | Array`). -/
inductive ProbOrN where
  | num : ℚ → ProbOrN
  | big : ℚ → ProbOrN
  | list : List MValue → ProbOrN
deriving DecidableEq, Repr

/-- A result of the public function: a single value, or an ordered sequence
of values. -/
inductive QResult where
  | single : MValue → QResult
  | arr : List MValue → QResult
deriving DecidableEq, Repr

/-- Per-element validation of a probability-list entry (source lines
147–159): a native number or BigNumber must lie in `[0, 1]` inclusive, any
other kind is a type error; on success the entry is handed to the scalar
calculator in its own numeric kind. -/
def checkProbElem : MValue → Except MError ProbVal
  | .num q =>
      if q < 0 ∨ 1 < q then .error (.error "Probability must be between 0 and 1, inclusive")
      else .ok (.pnum q)
  | .big q =>
      if q < 0 ∨ 1 < q then .error (.error "Probability must be between 0 and 1, inclusive")
      else .ok (.pbig q)
  | _ => .error (.typeError "Unexpected type of argument in function quantileSeq")

/-- One iteration of the probability-list loop (source lines 146–161):
validate the current entry, then compute its scalar quantile. -/
def listStep (C : Caps) (data : List MColl) (sorted : Bool) (currProb : MValue) :
    Except MError MValue :=
  match checkProbElem currProb with
  | .error e => .error e
  | .ok pv => _quantileSeq C data pv sorted

/-- `quantileSeq` (source lines 70–173): the argument normalizer /
dispatcher. Branches on the numeric kind and magnitude of the second
argument: a single probability in `[0,1]`, a count `N > 1` of evenly spaced
probabilities `i/(N+1)`, or a list of probabilities; results of the
BigNumber branch are wrapped back into BigNumbers. -/
def quantileSeq (C : Caps) (data : List MColl) (probOrN : ProbOrN) (sorted : Bool) :
    Except MError QResult :=
  match probOrN with
  | .num p =>
      if p < 0 then .error (.error "N/prob must be non-negative")
      else if p ≤ 1 then
        match _quantileSeq C data (.pnum p) sorted with
        | .error e => .error e
        | .ok v => .ok (.single v)
      else
        if ¬ ratIsInt p then .error (.error "N must be a positive integer")
        else
          let nPlusOne := p + 1
          match (List.range p.num.toNat).mapM
              (fun i : ℕ => _quantileSeq C data (.pnum (((i : ℚ) + 1) / nPlusOne)) sorted) with
          | .error e => .error e
          | .ok l => .ok (.arr l)
  | .big p =>
      if p < 0 then .error (.error "N/prob must be non-negative")
      else if p ≤ 1 then
        match _quantileSeq C data (.pbig p) sorted with
        | .error e => .error e
        | .ok v =>
            match toBigNumber v with
            | .error e => .error e
            | .ok b => .ok (.single b)
      else
        if ¬ ratIsInt p then .error (.error "N must be a positive integer")
        else if (4294967295 : ℚ) < p then
          .error (.error "N must be less than or equal to 2^32-1, as that is the maximum length of an Array")
        else
          let intN := p.num.toNat
          let nPlusOne : ℚ := (intN : ℚ) + 1
          match (List.range intN).mapM
              (fun i : ℕ =>
                match _quantileSeq C data (.pbig (((i : ℚ) + 1) / nPlusOne)) sorted with
                | .error e => Except.error e
                | .ok v => toBigNumber v) with
          | .error e => .error e
          | .ok l => .ok (.arr l)
  | .list ps =>
      match ps.mapM (listStep C data sorted) with
      | .error e => .error e
      | .ok l => .ok (.arr l)

/-- The probability-list loop of the dispatcher (source lines 146–162), with
its evaluation order made observable: processes the entries left to right,
validating each entry immediately before computing its quantile, and
additionally reports how many scalar-quantile computations were started
before the loop finished or failed. -/
def quantileListTraced (C : Caps) (data : List MColl) (sorted : Bool) :
    List MValue → Except MError (List MValue) × Nat
  | [] => (.ok [], 0)
  | currProb :: rest =>
      match checkProbElem currProb with
      | .error e => (.error e, 0)
      | .ok pv =>
          match _quantileSeq C data pv sorted with
          | .error e => (.error e, 1)
          | .ok v =>
              match quantileListTraced C data sorted rest with
              | (Except.ok l, n) => (.ok (v :: l), n + 1)
              | (Except.error e, n) => (.error e, n + 1)

/-- A flat array of native numbers, as an input collection. -/
def numArray (qs : List ℚ) : List MColl :=
  (qs.map MValue.num).map MColl.leaf

/-- The conceptually sorted (ascending) arrangement of a rational sequence:
the ground truth that defines its order statistics. -/
def sortQ (qs : List ℚ) : List ℚ :=
  qs.insertionSort (· ≤ ·)

/-- The quantile of an ascending sequence `ss` at fractional rank `idx`:
the exact order statistic when `idx` is an integer, and the linear
interpolation `(1 − f) × ss[k] + f × ss[k+1]` with `k = ⌊idx⌋`,
`f = idx − k` otherwise. -/
def interpQ (ss : List ℚ) (idx : ℚ) : ℚ :=
  let k := (⌊idx⌋).toNat
  let f := idx - ⌊idx⌋
  if f = 0 then ss.getD k 0
  else (1 - f) * ss.getD k 0 + f * ss.getD (k + 1) 0

/-- A heap of JS array objects; an array reference is an index into the
heap. -/
abbrev Heap := List (List MValue)

/-- In-place selection on the array object at `flatRef` — the explicit-heap
rendering of `partitionSelect(flat, k)`: the array object is replaced by its
partitioned reordering and the selected value is returned. -/
def heapSelect (hp : Heap) (flatRef : Nat) (k : Int) : Except MError MValue × Heap :=
  match partitionSelect (hp.getD flatRef []) k with
  | .error e => (.error e, hp)
  | .ok (v, f2) => (.ok v, hp.set flatRef f2)

/-- Modelled from the spec: the scalar calculator `_quantileSeq` rendered
over an explicit heap of array objects, making the in-place mutation of the
selection primitive observable. The caller's (1-D) array object lives at
`dataRef`; `flatten` (not part of the excerpt; the spec requires it to
produce an independent linear copy before any partitioning occurs) allocates
that copy as a fresh array object at the end of the heap, and the selection
primitive then mutates only the fresh object. -/
def quantileHeap (hp : Heap) (dataRef : Nat) (prob : ProbVal) (sorted : Bool) :
    Except MError MValue × Heap :=
  let dataArr := hp.getD dataRef []
  let flatRef := hp.length
  let hp1 := hp ++ [dataArr]
  let flat := dataArr
  let len := flat.length
  if len = 0 then (.error (.error "Cannot calculate quantile of an empty sequence"), hp1)
  else
    match prob with
    | .pnum p =>
        let index := p * ((len : ℚ) - 1)
        let fracPart := jsMod1 index
        if fracPart = 0 then
          if sorted then
            (match validate (jsGetV flat (jsTrunc index)) with
             | .error e => .error e
             | .ok value => .ok value, hp1)
          else
            match heapSelect hp1 flatRef (jsTrunc index) with
            | (Except.error e, hp2) => (.error e, hp2)
            | (Except.ok value, hp2) =>
                (match validate value with
                 | .error e => .error e
                 | .ok _ => .ok value, hp2)
        else
          let integerPart : Int := ⌊index⌋
          if sorted then
            (interpFinish mathjsCaps (jsGetV flat integerPart) (jsGetV flat (integerPart + 1))
              (.num (1 - fracPart)) (.num fracPart), hp1)
          else
            match heapSelect hp1 flatRef (integerPart + 1) with
            | (Except.error e, hp2) => (.error e, hp2)
            | (Except.ok right, hp2) =>
                (match scanLeftMax mathjsCaps (hp2.getD flatRef []) integerPart.toNat with
                 | .error e => .error e
                 | .ok left =>
                     interpFinish mathjsCaps left right (.num (1 - fracPart)) (.num fracPart),
                 hp2)
    | .pbig p =>
        let index := p * ((len : ℚ) - 1)
        if ratIsInt index then
          let indexN : Int := ⌊index⌋
          if sorted then
            (match validate (jsGetV flat indexN) with
             | .error e => .error e
             | .ok value => .ok value, hp1)
          else
            match heapSelect hp1 flatRef indexN with
            | (Except.error e, hp2) => (.error e, hp2)
            | (Except.ok value, hp2) =>
                (match validate value with
                 | .error e => .error e
                 | .ok _ => .ok value, hp2)
        else
          let integerPart : ℚ := ⌊index⌋
          let fracPart := index - integerPart
          let integerPartNumber : Int := ⌊index⌋
          if sorted then
            (interpFinish mathjsCaps (jsGetV flat integerPartNumber)
              (jsGetV flat (integerPartNumber + 1)) (.big (1 - fracPart)) (.big fracPart), hp1)
          else
            match heapSelect hp1 flatRef (integerPartNumber + 1) with
            | (Except.error e, hp2) => (.error e, hp2)
            | (Except.ok right, hp2) =>
                (match scanLeftMax mathjsCaps (hp2.getD flatRef []) integerPartNumber.toNat with
                 | .error e => .error e
                 | .ok left =>
                     interpFinish mathjsCaps left right (.big (1 - fracPart)) (.big fracPart),
                 hp2)

/-- Decidable equality of fallible results, for evaluating the embedding on
concrete inputs. -/
instance {ε α : Type} [DecidableEq ε] [DecidableEq α] : DecidableEq (Except ε α) := fun a b =>
  match a, b with
  | .ok x, .ok y =>
      if h : x = y then isTrue (by rw [h]) else isFalse (by simp [h])
  | .error x, .error y =>
      if h : x = y then isTrue (by rw [h]) else isFalse (by simp [h])
  | .ok _, .error _ => isFalse (by simp)
  | .error _, .ok _ => isFalse (by simp)

/-! ## Basic lemmas about the embedding -/

theorem mflattenList_map_leaf (vs : List MValue) :
    mflattenList (vs.map MColl.leaf) = vs := by
  induction vs with
  | nil => rfl
  | cons v vs ih => simp [mflattenList, mflatten, ih]

theorem mflattenList_numArray (qs : List ℚ) :
    mflattenList (numArray qs) = qs.map MValue.num :=
  mflattenList_map_leaf (qs.map MValue.num)

theorem except_bind_ok {α β : Type} (a : α) (f : α → Except MError β) :
    (Except.ok a >>= f) = f a := rfl

theorem except_bind_error {α β : Type} (e : MError) (f : α → Except MError β) :
    ((Except.error e : Except MError α) >>= f) = .error e := rfl

theorem except_pure_eq {α : Type} (a : α) : (pure a : Except MError α) = .ok a := rfl

theorem exceptMapM_eq {α β : Type} (f : α → Except MError β) (xs : List α) :
    xs.mapM f = List.mapM' f xs :=
  (List.mapM'_eq_mapM f xs).symm

theorem mapMq_ok_length {α β : Type} {f : α → Except MError β} :
    ∀ {xs : List α} {ys : List β}, List.mapM' f xs = .ok ys → ys.length = xs.length := by
  intro xs
  induction xs with
  | nil =>
      intro ys h
      rw [show List.mapM' f ([] : List α) = pure [] from rfl, except_pure_eq] at h
      cases h
      rfl
  | cons a as ih =>
      intro ys h
      simp only [List.mapM'] at h
      cases hfa : f a with
      | error e => rw [hfa, except_bind_error] at h; exact absurd h (by simp)
      | ok b =>
          rw [hfa, except_bind_ok] at h
          cases hrest : List.mapM' f as with
          | error e => rw [hrest, except_bind_error] at h; exact absurd h (by simp)
          | ok bs =>
              rw [hrest, except_bind_ok, except_pure_eq] at h
              cases h
              simpa using ih hrest

theorem mapMq_ok_get {α β : Type} {f : α → Except MError β} :
    ∀ {xs : List α} {ys : List β}, List.mapM' f xs = .ok ys →
      ∀ i (h1 : i < xs.length) (h2 : i < ys.length),
        f (xs.get ⟨i, h1⟩) = .ok (ys.get ⟨i, h2⟩) := by
  intro xs
  induction xs with
  | nil => intro ys h i h1 h2; exact absurd h1 (by simp)
  | cons a as ih =>
      intro ys h i h1 h2
      simp only [List.mapM'] at h
      cases hfa : f a with
      | error e => rw [hfa, except_bind_error] at h; exact absurd h (by simp)
      | ok b =>
          rw [hfa, except_bind_ok] at h
          cases hrest : List.mapM' f as with
          | error e => rw [hrest, except_bind_error] at h; exact absurd h (by simp)
          | ok bs =>
              rw [hrest, except_bind_ok, except_pure_eq] at h
              cases h
              cases i with
              | zero => simpa using hfa
              | succ j => exact ih hrest j (by simpa using h1) (by simpa using h2)

theorem mapMq_ok_forall {α β : Type} {f : α → Except MError β} (P : β → Prop)
    (hf : ∀ a b, f a = .ok b → P b) :
    ∀ {xs : List α} {ys : List β}, List.mapM' f xs = .ok ys → ∀ b ∈ ys, P b := by
  intro xs
  induction xs with
  | nil =>
      intro ys h b hb
      rw [show List.mapM' f ([] : List α) = pure [] from rfl, except_pure_eq] at h
      cases h
      simp at hb
  | cons a as ih =>
      intro ys h b hb
      simp only [List.mapM'] at h
      cases hfa : f a with
      | error e => rw [hfa, except_bind_error] at h; exact absurd h (by simp)
      | ok b0 =>
          rw [hfa, except_bind_ok] at h
          cases hrest : List.mapM' f as with
          | error e => rw [hrest, except_bind_error] at h; exact absurd h (by simp)
          | ok bs =>
              rw [hrest, except_bind_ok, except_pure_eq] at h
              cases h
              rcases List.mem_cons.mp hb with rfl | hmem
              · exact hf a b hfa
              · exact ih hrest b hmem

theorem mapMq_error_of_elem {α β : Type} {f : α → Except MError β} :
    ∀ {xs : List α}, (∃ a ∈ xs, ∃ e, f a = .error e) →
      ∃ e2, List.mapM' f xs = .error e2 := by
  intro xs
  induction xs with
  | nil => rintro ⟨a, ha, _⟩; simp at ha
  | cons a as ih =>
      rintro ⟨a0, ha0, e, he⟩
      simp only [List.mapM']
      cases hfa : f a with
      | error e1 => exact ⟨e1, by rw [except_bind_error]⟩
      | ok b =>
          rcases List.mem_cons.mp ha0 with rfl | hmem
          · rw [hfa] at he; exact absurd he (by simp)
          · rcases ih ⟨a0, hmem, e, he⟩ with ⟨e2, he2⟩
            exact ⟨e2, by rw [except_bind_ok, he2, except_bind_error]⟩

theorem quantileListTraced_fst (C : Caps) (data : List MColl) (s : Bool) :
    ∀ ps : List MValue,
      (quantileListTraced C data s ps).1 = List.mapM' (listStep C data s) ps := by
  intro ps
  induction ps with
  | nil => rfl
  | cons p rest ih =>
      have hstep : List.mapM' (listStep C data s) (p :: rest) =
          listStep C data s p >>= fun b =>
            List.mapM' (listStep C data s) rest >>= fun bs => pure (b :: bs) := rfl
      rw [hstep]
      unfold quantileListTraced
      cases hc : checkProbElem p with
      | error e => simp [listStep, hc, except_bind_error]
      | ok pv =>
          cases hq : _quantileSeq C data pv s with
          | error e => simp [listStep, hc, hq, except_bind_ok, except_bind_error]
          | ok v =>
              simp only [listStep, hc, hq, except_bind_ok]
              rcases hrec : quantileListTraced C data s rest with ⟨r1, n⟩
              have h1 : r1 = List.mapM' (listStep C data s) rest := by rw [← ih, hrec]
              cases r1 with
              | error e => simp [hrec, ← h1, except_bind_error]
              | ok l => simp [hrec, ← h1, except_bind_ok, except_pure_eq]

theorem toBigNumber_ok {v b : MValue} (h : toBigNumber v = .ok b) : ∃ q, b = .big q := by
  cases v with
  | num q => simp [toBigNumber] at h; exact ⟨q, h.symm⟩
  | big q => simp [toBigNumber] at h; exact ⟨q, h.symm⟩
  | unit q u => simp [toBigNumber] at h
  | other s => simp [toBigNumber] at h
  | jsUndefined => simp [toBigNumber] at h

/-! ## C8: concrete error cases -/

/-- C8: `quantileSeq([], 0.5)` fails with the empty-input error;
`quantileSeq(S, -0.1)` and `quantileSeq(S, [1.5])` fail with domain errors;
and `quantileSeq(S, 2.5)` fails with the domain error
"N must be a positive integer" — each error raised immediately at
detection and propagated to the caller. -/
theorem quantileSeq_error_cases :
    (∀ s : Bool,
        quantileSeq mathjsCaps [] (.num (1 / 2)) s =
          .error (.error "Cannot calculate quantile of an empty sequence")) ∧
    (∀ (d : List MColl) (s : Bool),
        quantileSeq mathjsCaps d (.num (-1 / 10)) s =
          .error (.error "N/prob must be non-negative")) ∧
    (∀ (d : List MColl) (s : Bool),
        quantileSeq mathjsCaps d (.list [.num (3 / 2)]) s =
          .error (.error "Probability must be between 0 and 1, inclusive")) ∧
    (∀ (d : List MColl) (s : Bool),
        quantileSeq mathjsCaps d (.num (5 / 2)) s =
          .error (.error "N must be a positive integer")) := by
  refine ⟨fun s => ?_, fun d s => ?_, fun d s => ?_, fun d s => ?_⟩
  · cases s <;> with_unfolding_all decide
  · have h0 : ((-1 : ℚ) / 10) < 0 := by norm_num
    simp only [quantileSeq]
    rw [if_pos h0]
  · have hx : listStep mathjsCaps d s (.num (3 / 2)) =
        .error (.error "Probability must be between 0 and 1, inclusive") := by
      have : ((1 : ℚ) < 3 / 2) := by norm_num
      simp [listStep, checkProbElem, this]
    simp only [quantileSeq, exceptMapM_eq]
    rw [show List.mapM' (listStep mathjsCaps d s) [MValue.num (3 / 2)] =
        listStep mathjsCaps d s (.num (3 / 2)) >>= fun b =>
          List.mapM' (listStep mathjsCaps d s) [] >>= fun bs => pure (b :: bs) from rfl]
    rw [hx, except_bind_error]
  · have h0 : ¬ ((5 : ℚ) / 2 < 0) := by norm_num
    have h1 : ¬ ((5 : ℚ) / 2 ≤ 1) := by norm_num
    have h2 : ratIsInt ((5 : ℚ) / 2) = false := by with_unfolding_all decide
    simp only [quantileSeq]
    rw [if_neg h0, if_neg h1, if_pos (by simp [h2])]

/-! ## C4: list form vs single form -/

/-- C4 counterexample: the list form does not always agree with the single
form — for a BigNumber probability whose rank is an exact integer, the list
form returns the raw element (a native number here) while the single form
wraps the result into a BigNumber, so the two results have different kinds. -/
theorem quantileSeq_list_vs_single_mismatch :
    quantileSeq mathjsCaps (numArray [1, 2, 3]) (.list [.big (1 / 2)]) false =
        .ok (.arr [.num 2]) ∧
    quantileSeq mathjsCaps (numArray [1, 2, 3]) (.big (1 / 2)) false =
        .ok (.single (.big 2)) ∧
    MValue.num 2 ≠ MValue.big 2 := by
  refine ⟨by with_unfolding_all decide, by with_unfolding_all decide, by with_unfolding_all decide⟩

/-- C4 (amended): for every non-empty collection and every list of
native-number probabilities in `[0, 1]`, the list form returns an ordered
sequence whose i-th element equals the single-probability result for the
i-th probability, in input order. (For BigNumber probabilities the single
form additionally wraps its result into a BigNumber, which the list form
does not do — see the counterexample.) -/
theorem quantileSeq_list_form_natives (d : List MColl) (s : Bool) (ps : List ℚ)
    (hps : ∀ p ∈ ps, 0 ≤ p ∧ p ≤ 1) (l : List MValue)
    (hok : quantileSeq mathjsCaps d (.list (ps.map MValue.num)) s = .ok (.arr l)) :
    l.length = ps.length ∧
      ∀ i (h1 : i < ps.length) (h2 : i < l.length),
        quantileSeq mathjsCaps d (.num (ps.get ⟨i, h1⟩)) s =
          .ok (.single (l.get ⟨i, h2⟩)) := by
  have hm : (ps.map MValue.num).mapM (listStep mathjsCaps d s) = .ok l := by
    revert hok
    simp only [quantileSeq]
    cases hmm : (ps.map MValue.num).mapM (listStep mathjsCaps d s) with
    | error e => intro h; exact absurd h (by simp)
    | ok l2 =>
        intro h
        have : l2 = l := by
          injection h with h2
          injection h2
        rw [this]
  have hm' : List.mapM' (listStep mathjsCaps d s) (ps.map MValue.num) = .ok l :=
    (exceptMapM_eq _ _) ▸ hm
  constructor
  · simpa using mapMq_ok_length hm'
  · intro i h1 h2
    have hstep := mapMq_ok_get hm' i (by simpa using h1) h2
    simp only [List.get_eq_getElem, List.getElem_map] at hstep ⊢
    obtain ⟨hp0, hp1⟩ := hps (ps[i]) (List.getElem_mem h1)
    have hcond : ¬ (ps[i] < 0 ∨ 1 < ps[i]) := by push_neg; exact ⟨hp0, hp1⟩
    have hc : checkProbElem (.num (ps[i])) = .ok (.pnum (ps[i])) := by
      simp [checkProbElem, hcond]
    have hq : _quantileSeq mathjsCaps d (.pnum (ps[i])) s = .ok (l[i]) := by
      simpa [listStep, hc] using hstep
    simp only [quantileSeq]
    rw [if_neg (not_lt.2 hp0), if_pos hp1, hq]

/-- C4 witness: the amended list-form theorem applied at
`S = [3, −1, 5, 7]`, `ps = [1/3, 2/3]`, giving `quantileSeq(S, 1/3) = 3`. -/
theorem quantileSeq_list_form_natives_witness :
    quantileSeq mathjsCaps (numArray [3, -1, 5, 7]) (.num (1 / 3)) false =
      .ok (.single (.num 3)) :=
  (quantileSeq_list_form_natives (numArray [3, -1, 5, 7]) false [1 / 3, 2 / 3]
      (by with_unfolding_all decide) [.num 3, .num 5]
      (by with_unfolding_all decide)).2 0 (by decide) (by decide)

/-! ## C5: validation order in the list form -/

/-- C5 counterexample: it is not the case that validation of the full
probability list precedes all quantile computation — with
`ps = [0.5, 1.5]` on `[1, 2]`, the call fails on the invalid second entry,
but the quantile for the first entry has already been computed (the traced
loop counts one scalar-quantile computation, not zero). -/
theorem quantileSeq_list_precheck_refuted :
    ¬ ∀ (data : List MColl) (ps : List MValue) (s : Bool),
        (∃ p ∈ ps, ∃ e, checkProbElem p = .error e) →
        (quantileListTraced mathjsCaps data s ps).2 = 0 := by
  intro h
  have hbad : ∃ p ∈ ([.num (1 / 2), .num (3 / 2)] : List MValue), ∃ e,
      checkProbElem p = .error e :=
    ⟨.num (3 / 2), by with_unfolding_all decide,
      .error "Probability must be between 0 and 1, inclusive", by with_unfolding_all decide⟩
  have h2 := h (numArray [1, 2]) [.num (1 / 2), .num (3 / 2)] false hbad
  exact absurd h2 (by with_unfolding_all decide)

/-- C5 (amended): if any entry of a probability list is invalid, the whole
call fails with an error, so no partial results are ever returned — but each
entry is validated immediately before its own quantile is computed, so
quantiles for entries preceding the first invalid one may already have been
computed when the call fails. -/
theorem quantileSeq_list_invalid_fails (C : Caps) (data : List MColl) (s : Bool)
    (ps : List MValue) (hbad : ∃ p ∈ ps, ∃ e, checkProbElem p = .error e) :
    ∃ e2, quantileSeq C data (.list ps) s = .error e2 := by
  have hstep : ∃ a ∈ ps, ∃ e, listStep C data s a = .error e := by
    rcases hbad with ⟨p, hp, e, he⟩
    exact ⟨p, hp, e, by simp [listStep, he]⟩
  rcases mapMq_error_of_elem hstep with ⟨e2, he2⟩
  refine ⟨e2, ?_⟩
  simp only [quantileSeq, exceptMapM_eq, he2]

/-- C5 witness: the amended theorem applied at `S = [1, 2]`,
`ps = [0.5, 1.5]`. -/
theorem quantileSeq_list_invalid_fails_witness :
    ∃ e2, quantileSeq mathjsCaps (numArray [1, 2])
        (.list [.num (1 / 2), .num (3 / 2)]) false = .error e2 :=
  quantileSeq_list_invalid_fails mathjsCaps (numArray [1, 2]) false _
    ⟨.num (3 / 2), by with_unfolding_all decide,
      .error "Probability must be between 0 and 1, inclusive", by with_unfolding_all decide⟩

/-! ## C3: count form -/

/-- C3: for every collection and native integer count `N > 1`,
`quantileSeq(S, N)` returns an ordered sequence of exactly `N` results whose
i-th entry (in ascending order of `i`) equals the single-probability call
`quantileSeq(S, (i+1)/(N+1))`. -/
theorem quantileSeq_count_form (d : List MColl) (s : Bool) (N : ℚ)
    (hInt : ratIsInt N = true) (hN : 1 < N) (l : List MValue)
    (hok : quantileSeq mathjsCaps d (.num N) s = .ok (.arr l)) :
    (l.length : ℚ) = N ∧
      ∀ i (h2 : i < l.length),
        quantileSeq mathjsCaps d (.num (((i : ℚ) + 1) / (N + 1))) s =
          .ok (.single (l.get ⟨i, h2⟩)) := by
  have hN0 : ¬ (N < 0) := by linarith
  have hN1 : ¬ (N ≤ 1) := not_le.2 hN
  have hNnum : ((N.num : ℚ)) = N := by
    have hd : N.den = 1 := by simpa [ratIsInt] using hInt
    have := Rat.num_div_den N
    rw [hd] at this
    simpa using this
  have hnn : (0 : ℤ) ≤ N.num := by
    by_contra hneg
    push_neg at hneg
    have : ((N.num : ℚ)) < 0 := by exact_mod_cast hneg
    rw [hNnum] at this
    linarith
  have hcast : ((N.num.toNat : ℚ)) = N := by
    rw [← hNnum]
    exact_mod_cast congrArg (fun z : ℤ => (z : ℚ)) (Int.toNat_of_nonneg hnn)
  have hm : (List.range N.num.toNat).mapM
      (fun i : ℕ => _quantileSeq mathjsCaps d (.pnum (((i : ℚ) + 1) / (N + 1))) s) = .ok l := by
    revert hok
    simp only [quantileSeq]
    rw [if_neg hN0, if_neg hN1, if_neg (by simp [hInt])]
    cases hmm : (List.range N.num.toNat).mapM
        (fun i : ℕ => _quantileSeq mathjsCaps d (.pnum (((i : ℚ) + 1) / (N + 1))) s) with
    | error e => intro h; exact absurd h (by simp)
    | ok l2 =>
        intro h
        have : l2 = l := by
          injection h with h2
          injection h2
        rw [this]
  have hm' : List.mapM'
      (fun i : ℕ => _quantileSeq mathjsCaps d (.pnum (((i : ℚ) + 1) / (N + 1))) s)
      (List.range N.num.toNat) = .ok l :=
    (exceptMapM_eq _ _) ▸ hm
  have hlen : l.length = N.num.toNat := by
    rw [mapMq_ok_length hm', List.length_range]
  constructor
  · rw [hlen]; exact hcast
  · intro i h2
    have hi : i < N.num.toNat := hlen ▸ h2
    have hstep := mapMq_ok_get hm' i (by simpa only [List.length_range] using hi) h2
    simp only [List.get_eq_getElem, List.getElem_range] at hstep
    have hp0 : ¬ ((((i : ℚ) + 1) / (N + 1)) < 0) :=
      not_lt.2 (div_nonneg (by positivity) (by linarith))
    have hp1 : (((i : ℚ) + 1) / (N + 1)) ≤ 1 := by
      rw [div_le_one (by linarith)]
      have h3 : ((i : ℚ)) + 1 ≤ N := by
        have h4 : (i + 1 : ℕ) ≤ N.num.toNat := hi
        calc ((i : ℚ)) + 1 = ((i + 1 : ℕ) : ℚ) := by push_cast; ring
          _ ≤ ((N.num.toNat : ℚ)) := by exact_mod_cast h4
          _ = N := hcast
      linarith
    simp only [quantileSeq]
    rw [if_neg hp0, if_pos hp1, hstep]
    simp

/-- C3 witness: `quantileSeq([3, −1, 5, 7], 2)` returns a sequence of
exactly two results (`[3, 5]`). -/
theorem quantileSeq_count_form_witness :
    (([MValue.num 3, MValue.num 5] : List MValue).length : ℚ) = 2 :=
  (quantileSeq_count_form (numArray [3, -1, 5, 7]) false 2
    (by with_unfolding_all decide) (by norm_num) [.num 3, .num 5]
    (by with_unfolding_all decide)).1

/-! ## C9: the arbitrary-precision branch -/

/-- C9: in the BigNumber branch, an integer count whose native conversion
exceeds `2^32 − 1` raises the maximum-length domain error; and every
successful result of the branch — single probability or count form — is
wrapped back into a BigNumber value. -/
theorem quantileSeq_bignumber_branch :
    (∀ (d : List MColl) (s : Bool) (N : ℚ), ratIsInt N = true → 1 < N →
        4294967295 < N →
        quantileSeq mathjsCaps d (.big N) s =
          .error (.error "N must be less than or equal to 2^32-1, as that is the maximum length of an Array")) ∧
    (∀ (d : List MColl) (s : Bool) (p : ℚ) (r : QResult),
        quantileSeq mathjsCaps d (.big p) s = .ok r →
        (∃ q, r = .single (.big q)) ∨
          (∃ lb, r = .arr lb ∧ ∀ v ∈ lb, ∃ q, v = .big q)) := by
  constructor
  · intro d s N hInt hN hBig
    have h0 : ¬ (N < 0) := by linarith
    have h1 : ¬ (N ≤ 1) := not_le.2 hN
    simp only [quantileSeq]
    rw [if_neg h0, if_neg h1, if_neg (by simp [hInt]), if_pos hBig]
  · intro d s p r hok
    simp only [quantileSeq] at hok
    split at hok
    · exact absurd hok (by simp)
    split at hok
    · -- single-probability branch: the result is wrapped by `new BigNumber`
      split at hok
      · exact absurd hok (by simp)
      · rename_i v hv
        split at hok
        · exact absurd hok (by simp)
        · rename_i b hb
          left
          rcases toBigNumber_ok hb with ⟨q, rfl⟩
          exact ⟨q, by injection hok with h2; exact h2.symm⟩
    · -- count branch
      split at hok
      · exact absurd hok (by simp)
      split at hok
      · exact absurd hok (by simp)
      split at hok
      · exact absurd hok (by simp)
      · rename_i lb hlb
        right
        refine ⟨lb, by injection hok with h2; exact h2.symm, ?_⟩
        have hlb' := (exceptMapM_eq _ _) ▸ hlb
        refine mapMq_ok_forall (fun v => ∃ q, v = .big q) ?_ hlb'
        intro a b hb
        revert hb
        cases hqq : _quantileSeq mathjsCaps d
            (.pbig (((a : ℚ) + 1) / ((Rat.num p).toNat + 1))) s with
        | error e => intro hb; exact absurd hb (by simp)
        | ok v => intro hb; exact toBigNumber_ok hb

/-- C9 witness: `N = 2^32` raises the maximum-length error, and the single
BigNumber-probability call on `[1, 2, 3]` returns a BigNumber. -/
theorem quantileSeq_bignumber_branch_witness :
    quantileSeq mathjsCaps (numArray [1, 2]) (.big 4294967296) false =
      .error (.error "N must be less than or equal to 2^32-1, as that is the maximum length of an Array") ∧
    ((∃ q, QResult.single (MValue.big 2) = QResult.single (.big q)) ∨
      (∃ lb, QResult.single (MValue.big 2) = .arr lb ∧ ∀ v ∈ lb, ∃ q, v = .big q)) :=
  ⟨quantileSeq_bignumber_branch.1 (numArray [1, 2]) false 4294967296
      (by with_unfolding_all decide) (by norm_num) (by norm_num),
    quantileSeq_bignumber_branch.2 (numArray [1, 2, 3]) false (1 / 2)
      (.single (.big 2)) (by with_unfolding_all decide)⟩

/-! ## C7: mutation is confined to the private flattened copy -/

theorem getD_append_length {α : Type} : ∀ (l : List α) (a d : α),
    (l ++ [a]).getD l.length d = a := by
  intro l a d
  induction l with
  | nil => rfl
  | cons x xs ih => exact ih

theorem set_append_length {α : Type} : ∀ (l : List α) (a b : α),
    (l ++ [a]).set l.length b = l ++ [b] := by
  intro l a b
  induction l with
  | nil => rfl
  | cons x xs ih => simp [List.set, ih]

/-- C7: the caller's collection is never mutated — in the explicit-heap
rendering of the scalar calculator, the in-place reordering performed by the
selection primitive is confined to the private flattened copy allocated by
`flatten` before any partitioning, so every array object that existed before
the call (in particular the caller's input at `dataRef`) is unchanged when
the call returns; moreover the heap rendering computes exactly the same
result as the pure scalar calculator on the input's contents. -/
theorem quantileHeap_frame (hp : Heap) (r : Nat) (prob : ProbVal) (s : Bool) :
    ((quantileHeap hp r prob s).2).take hp.length = hp ∧
    (quantileHeap hp r prob s).1 =
      _quantileSeq mathjsCaps ((hp.getD r []).map MColl.leaf) prob s := by
  have hdata : (hp ++ [hp.getD r []]).getD hp.length [] = hp.getD r [] :=
    getD_append_length hp _ _
  have htake0 : (hp ++ [hp.getD r []]).take hp.length = hp := List.take_left hp _
  have htake : ∀ b, ((hp ++ [hp.getD r []]).set hp.length b).take hp.length = hp := by
    intro b
    rw [set_append_length]
    exact List.take_left hp _
  have hgetset : ∀ b, ((hp ++ [hp.getD r []]).set hp.length b).getD hp.length [] = b := by
    intro b
    rw [set_append_length]
    exact getD_append_length hp _ _
  constructor
  · simp only [quantileHeap, heapSelect, hdata]
    split
    · exact htake0
    split
    · -- native-number probability
      split
      · split
        · exact htake0
        · rename_i p hfrac hs
          cases hsel : partitionSelect (hp.getD r [])
              (jsTrunc (p * (((hp.getD r []).length : ℚ) - 1))) with
          | error e => simp [hsel, htake0]
          | ok vf => rcases vf with ⟨v, f2⟩; simp [hsel, htake]
      · split
        · exact htake0
        · rename_i p hfrac hs
          cases hsel : partitionSelect (hp.getD r [])
              (⌊p * (((hp.getD r []).length : ℚ) - 1)⌋ + 1) with
          | error e => simp [hsel, htake0]
          | ok vf => rcases vf with ⟨v, f2⟩; simp [hsel, htake]
    · -- BigNumber probability
      split
      · split
        · exact htake0
        · rename_i p hfrac hs
          cases hsel : partitionSelect (hp.getD r [])
              (⌊p * (((hp.getD r []).length : ℚ) - 1)⌋ : Int) with
          | error e => simp [hsel, htake0]
          | ok vf => rcases vf with ⟨v, f2⟩; simp [hsel, htake]
      · split
        · exact htake0
        · rename_i p hfrac hs
          cases hsel : partitionSelect (hp.getD r [])
              (⌊p * (((hp.getD r []).length : ℚ) - 1)⌋ + 1) with
          | error e => simp [hsel, htake0]
          | ok vf => rcases vf with ⟨v, f2⟩; simp [hsel, htake]
  · simp only [quantileHeap, _quantileSeq, heapSelect, mathjsCaps, hdata,
      mflattenList_map_leaf]
    split
    · rfl
    split
    · -- native-number probability
      split
      · -- exact integer rank
        split
        · rfl
        · rename_i p hfrac hs
          cases hsel : partitionSelect (hp.getD r [])
              (jsTrunc (p * (((hp.getD r []).length : ℚ) - 1))) with
          | error e => simp [hsel]
          | ok vf => rcases vf with ⟨v, f2⟩; simp [hsel]
      · -- interpolating rank
        split
        · rfl
        · rename_i p hfrac hs
          cases hsel : partitionSelect (hp.getD r [])
              (⌊p * (((hp.getD r []).length : ℚ) - 1)⌋ + 1) with
          | error e => simp [hsel]
          | ok vf => rcases vf with ⟨v, f2⟩; simp [hsel, hgetset]
    · -- BigNumber probability
      split
      · split
        · rfl
        · rename_i p hfrac hs
          cases hsel : partitionSelect (hp.getD r [])
              (⌊p * (((hp.getD r []).length : ℚ) - 1)⌋ : Int) with
          | error e => simp [hsel]
          | ok vf => rcases vf with ⟨v, f2⟩; simp [hsel]
      · split
        · rfl
        · rename_i p hfrac hs
          cases hsel : partitionSelect (hp.getD r [])
              (⌊p * (((hp.getD r []).length : ℚ) - 1)⌋ + 1) with
          | error e => simp [hsel]
          | ok vf => rcases vf with ⟨v, f2⟩; simp [hsel, hgetset]

/-! ## Order-statistic machinery: `msort` on numeric sequences -/

theorem qsign_nonpos_iff (a b : ℚ) : qsign (a - b) ≤ 0 ↔ a ≤ b := by
  unfold qsign
  constructor
  · intro h
    by_contra hab
    push_neg at hab
    have h1 : ¬ (a - b < 0) := by linarith
    have h2 : ¬ (a - b = 0) := by linarith
    simp [h1, h2] at h
  · intro h
    rcases lt_or_eq_of_le h with h1 | h1
    · simp [show a - b < 0 by linarith]
    · simp [h1]

theorem qsign_pos_iff (a b : ℚ) : 0 < qsign (a - b) ↔ b < a := by
  constructor
  · intro h
    by_contra hab
    push_neg at hab
    have := (qsign_nonpos_iff a b).2 hab
    omega
  · intro h
    have h1 : ¬ (a - b < 0) := by linarith
    have h2 : ¬ (a - b = 0) := by linarith
    unfold qsign
    simp [h1, h2]

theorem minsert_num (a : ℚ) (qs : List ℚ) :
    minsert (.num a) (qs.map MValue.num) =
      .ok ((List.orderedInsert (· ≤ ·) a qs).map MValue.num) := by
  induction qs with
  | nil => rfl
  | cons b bs ih =>
      simp only [List.map_cons, minsert, mcompare, List.orderedInsert]
      by_cases hab : a ≤ b
      · rw [if_pos ((qsign_nonpos_iff a b).2 hab), if_pos hab]
        simp
      · rw [if_neg (by simpa [qsign_nonpos_iff] using hab), if_neg hab]
        rw [ih]
        simp

theorem msort_num (qs : List ℚ) :
    msort (qs.map MValue.num) = .ok ((sortQ qs).map MValue.num) := by
  induction qs with
  | nil => rfl
  | cons a as ih =>
      simp only [List.map_cons, msort, ih, sortQ, List.insertionSort]
      exact minsert_num a (as.insertionSort (· ≤ ·))

theorem sortQ_sorted (qs : List ℚ) : (sortQ qs).Sorted (· ≤ ·) :=
  List.sorted_insertionSort (· ≤ ·) qs

theorem sortQ_perm (qs : List ℚ) : (sortQ qs).Perm qs :=
  List.perm_insertionSort (· ≤ ·) qs

theorem sortQ_length (qs : List ℚ) : (sortQ qs).length = qs.length :=
  (sortQ_perm qs).length_eq

theorem sortQ_eq_of_perm {qs qs2 : List ℚ} (h : qs.Perm qs2) : sortQ qs = sortQ qs2 :=
  List.eq_of_perm_of_sorted ((sortQ_perm qs).trans (h.trans (sortQ_perm qs2).symm))
    (sortQ_sorted qs) (sortQ_sorted qs2)

theorem getD_map_num (l : List ℚ) (i : ℕ) (h : i < l.length) :
    (l.map MValue.num).getD i .jsUndefined = .num (l.getD i 0) := by
  rw [List.getD_eq_getElem _ _ (by simpa using h), List.getD_eq_getElem _ _ h]
  simp

theorem partitionSelect_num (qs : List ℚ) (k : Int) (h0 : 0 ≤ k)
    (hk : k.toNat < qs.length) :
    partitionSelect (qs.map MValue.num) k =
      .ok (.num ((sortQ qs).getD k.toNat 0), (sortQ qs).map MValue.num) := by
  unfold partitionSelect
  rw [if_neg, msort_num]
  · simp only [getD_map_num _ _ (by rw [sortQ_length]; exact hk)]
  · push_neg
    constructor
    · exact h0
    · simp only [List.length_map]
      omega

theorem scanGo_num_le (C : Caps) (hC : C.compare = mcompare) (v : ℚ) :
    ∀ pre : List ℚ, (∀ x ∈ pre, x ≤ v) →
      scanGo C (pre.map MValue.num) (.num v) = .ok (.num v) := by
  intro pre
  induction pre with
  | nil => intro h; rfl
  | cons x xs ih =>
      intro h
      simp only [List.map_cons, scanGo, hC, mcompare]
      have hx : ¬ (0 < qsign (x - v)) := by
        rw [qsign_pos_iff]
        push_neg
        exact h x (by simp)
      rw [if_neg hx]
      exact ih fun y hy => h y (by simp [hy])

theorem sortQ_getD_mono {ss : List ℚ} (hs : ss.Sorted (· ≤ ·)) {i j : ℕ}
    (hij : i ≤ j) (hj : j < ss.length) : ss.getD i 0 ≤ ss.getD j 0 := by
  rw [List.getD_eq_getElem _ _ (lt_of_le_of_lt hij hj), List.getD_eq_getElem _ _ hj]
  have h := hs.rel_get_of_le (a := ⟨i, lt_of_le_of_lt hij hj⟩) (b := ⟨j, hj⟩)
    (by simpa using hij)
  simpa using h

theorem jsGetV_map_num (l : List ℚ) (k : ℕ) (hk : k < l.length) :
    jsGetV (l.map MValue.num) (k : Int) = .num (l.getD k 0) := by
  unfold jsGetV
  rw [if_pos (Int.natCast_nonneg k)]
  simpa using getD_map_num l k hk

theorem scanLeftMax_sorted (C : Caps) (hC : C.compare = mcompare) (ss : List ℚ)
    (hs : ss.Sorted (· ≤ ·)) (k : ℕ) (hk : k < ss.length) :
    scanLeftMax C (ss.map MValue.num) k = .ok (.num (ss.getD k 0)) := by
  unfold scanLeftMax
  rw [jsGetV_map_num ss k hk, ← List.map_take]
  apply scanGo_num_le C hC
  intro x hx
  rcases List.mem_iff_getElem.1 hx with ⟨j, hj, hxj⟩
  have hjk : j < k := by
    have h2 := hj
    simp only [List.length_take] at h2
    omega
  have hxval : x = ss.get ⟨j, lt_trans hjk hk⟩ := by
    rw [List.get_eq_getElem, ← hxj]
    exact List.getElem_take ss
  rw [hxval, List.getD_eq_getElem ss 0 hk]
  have h := hs.rel_get_of_le (a := ⟨j, lt_trans hjk hk⟩) (b := ⟨k, hk⟩)
    (by simpa using le_of_lt hjk)
  simpa using h

theorem jsMod1_eq_fract {q : ℚ} (h : 0 ≤ q) : jsMod1 q = q - ⌊q⌋ := by
  unfold jsMod1 jsTrunc
  rw [if_pos h]

theorem frac_lt_top {idx : ℚ} {n : ℕ} (hle : idx ≤ (n : ℚ) - 1)
    (hf : idx - ⌊idx⌋ ≠ 0) : idx < (n : ℚ) - 1 := by
  rcases lt_or_eq_of_le hle with h | h
  · exact h
  · exfalso
    apply hf
    rw [h]
    have h2 : ((n : ℚ) - 1) = (((n : ℤ) - 1 : ℤ) : ℚ) := by push_cast; ring
    rw [h2, Int.floor_intCast]
    ring

theorem floor_lt_len {idx : ℚ} {n : ℕ} (h0 : 0 ≤ idx) (hle : idx ≤ (n : ℚ) - 1) :
    ⌊idx⌋.toNat < n := by
  have h1 : (⌊idx⌋ : ℚ) ≤ (n : ℚ) - 1 := le_trans (Int.floor_le idx) hle
  have h3 : ⌊idx⌋ ≤ (n : ℤ) - 1 := by exact_mod_cast h1
  have h4 : 0 ≤ ⌊idx⌋ := Int.floor_nonneg.2 h0
  omega

theorem floor_succ_lt {idx : ℚ} {n : ℕ} (h0 : 0 ≤ idx) (hlt : idx < (n : ℚ) - 1) :
    ⌊idx⌋.toNat + 1 < n := by
  have h2 : (⌊idx⌋ : ℚ) < (n : ℚ) - 1 := lt_of_le_of_lt (Int.floor_le idx) hlt
  have h3 : ⌊idx⌋ < (n : ℤ) - 1 := by exact_mod_cast h2
  have h4 : 0 ≤ ⌊idx⌋ := Int.floor_nonneg.2 h0
  omega

theorem interpFinish_num (C : Caps) (a b : ℚ) (w1 w2 : MValue) :
    interpFinish C (.num a) (.num b) w1 w2 = interpCombine C (.num a) (.num b) w1 w2 := by
  simp [interpFinish, validate, isSupported]

theorem _quantileSeq_num_intrank (C : Caps) (hCs : C.pselect = partitionSelect)
    (qs : List ℚ) (p : ℚ) (hne : qs ≠ []) (h0 : 0 ≤ p) (h1 : p ≤ 1)
    (hint : jsMod1 (p * ((qs.length : ℚ) - 1)) = 0) :
    _quantileSeq C (numArray qs) (.pnum p) false =
      .ok (.num ((sortQ qs).getD (⌊p * ((qs.length : ℚ) - 1)⌋).toNat 0)) := by
  have hn : 1 ≤ qs.length := List.length_pos.2 hne
  have hn1 : (0 : ℚ) ≤ (qs.length : ℚ) - 1 := by
    have h2 : (1 : ℚ) ≤ (qs.length : ℚ) := by exact_mod_cast hn
    linarith
  simp only [_quantileSeq, mflattenList_numArray, List.length_map]
  rw [if_neg (by omega : ¬ qs.length = 0)]
  set idx := p * ((qs.length : ℚ) - 1) with hidx
  have hidx0 : 0 ≤ idx := mul_nonneg h0 hn1
  have hidxle : idx ≤ (qs.length : ℚ) - 1 := by
    calc idx ≤ 1 * ((qs.length : ℚ) - 1) := mul_le_mul_of_nonneg_right h1 hn1
      _ = (qs.length : ℚ) - 1 := by ring
  have htr : jsTrunc idx = ⌊idx⌋ := by unfold jsTrunc; rw [if_pos hidx0]
  have hklen : ⌊idx⌋.toNat < qs.length := floor_lt_len hidx0 hidxle
  have hsl : (sortQ qs).length = qs.length := sortQ_length qs
  rw [if_pos hint]
  simp only [Bool.false_eq_true, if_false]
  rw [htr, hCs, partitionSelect_num qs ⌊idx⌋ (Int.floor_nonneg.2 hidx0) hklen]
  simp [validate, isSupported]

theorem _quantileSeq_num_frac (C : Caps) (hCc : C.compare = mcompare)
    (hCs : C.pselect = partitionSelect) (qs : List ℚ) (p : ℚ)
    (hne : qs ≠ []) (h0 : 0 ≤ p) (h1 : p ≤ 1)
    (hfrac : jsMod1 (p * ((qs.length : ℚ) - 1)) ≠ 0) :
    _quantileSeq C (numArray qs) (.pnum p) false =
      interpCombine C
        (.num ((sortQ qs).getD (⌊p * ((qs.length : ℚ) - 1)⌋).toNat 0))
        (.num ((sortQ qs).getD ((⌊p * ((qs.length : ℚ) - 1)⌋).toNat + 1) 0))
        (.num (1 - jsMod1 (p * ((qs.length : ℚ) - 1))))
        (.num (jsMod1 (p * ((qs.length : ℚ) - 1)))) ∧
    scanLeftMax C ((sortQ qs).map MValue.num) (⌊p * ((qs.length : ℚ) - 1)⌋).toNat =
      .ok (.num ((sortQ qs).getD (⌊p * ((qs.length : ℚ) - 1)⌋).toNat 0)) := by
  have hn : 1 ≤ qs.length := List.length_pos.2 hne
  have hn1 : (0 : ℚ) ≤ (qs.length : ℚ) - 1 := by
    have h2 : (1 : ℚ) ≤ (qs.length : ℚ) := by exact_mod_cast hn
    linarith
  have hidx0 : 0 ≤ p * ((qs.length : ℚ) - 1) := mul_nonneg h0 hn1
  have hidxle : p * ((qs.length : ℚ) - 1) ≤ (qs.length : ℚ) - 1 := by
    calc p * ((qs.length : ℚ) - 1) ≤ 1 * ((qs.length : ℚ) - 1) :=
          mul_le_mul_of_nonneg_right h1 hn1
      _ = (qs.length : ℚ) - 1 := by ring
  have hsl : (sortQ qs).length = qs.length := sortQ_length qs
  have hfr : p * ((qs.length : ℚ) - 1) - ⌊p * ((qs.length : ℚ) - 1)⌋ ≠ 0 := by
    rw [← jsMod1_eq_fract hidx0]
    exact hfrac
  have hidxlt : p * ((qs.length : ℚ) - 1) < (qs.length : ℚ) - 1 :=
    frac_lt_top hidxle hfr
  have hk1 : (⌊p * ((qs.length : ℚ) - 1)⌋).toNat + 1 < qs.length :=
    floor_succ_lt hidx0 hidxlt
  have hk0 : (⌊p * ((qs.length : ℚ) - 1)⌋).toNat < qs.length := by omega
  have htn : (⌊p * ((qs.length : ℚ) - 1)⌋ + 1).toNat =
      (⌊p * ((qs.length : ℚ) - 1)⌋).toNat + 1 := by
    have h4 : 0 ≤ ⌊p * ((qs.length : ℚ) - 1)⌋ := Int.floor_nonneg.2 hidx0
    omega
  have hscan : scanLeftMax C ((sortQ qs).map MValue.num)
      (⌊p * ((qs.length : ℚ) - 1)⌋).toNat =
      .ok (.num ((sortQ qs).getD (⌊p * ((qs.length : ℚ) - 1)⌋).toNat 0)) :=
    scanLeftMax_sorted C hCc (sortQ qs) (sortQ_sorted qs) _ (by rw [hsl]; exact hk0)
  refine ⟨?_, hscan⟩
  simp only [_quantileSeq, mflattenList_numArray, List.length_map]
  rw [if_neg (by omega : ¬ qs.length = 0), if_neg hfrac]
  simp only [Bool.false_eq_true, if_false]
  rw [hCs, partitionSelect_num qs (⌊p * ((qs.length : ℚ) - 1)⌋ + 1)
    (by positivity) (by rw [htn]; exact hk1)]
  simp only []
  rw [hscan]
  rw [htn]
  exact interpFinish_num C _ _ _ _

theorem interpCombine_mathjs_num (a b w1 w2 : ℚ) :
    interpCombine mathjsCaps (.num a) (.num b) (.num w1) (.num w2) =
      .ok (.num (a * w1 + b * w2)) := rfl

theorem _quantileSeq_num_value (qs : List ℚ) (p : ℚ) (hne : qs ≠ [])
    (h0 : 0 ≤ p) (h1 : p ≤ 1) :
    _quantileSeq mathjsCaps (numArray qs) (.pnum p) false =
      .ok (.num (interpQ (sortQ qs) (p * ((qs.length : ℚ) - 1)))) := by
  have hn : 1 ≤ qs.length := List.length_pos.2 hne
  have hn1 : (0 : ℚ) ≤ (qs.length : ℚ) - 1 := by
    have h2 : (1 : ℚ) ≤ (qs.length : ℚ) := by exact_mod_cast hn
    linarith
  have hidx0 : 0 ≤ p * ((qs.length : ℚ) - 1) := mul_nonneg h0 hn1
  by_cases hint : jsMod1 (p * ((qs.length : ℚ) - 1)) = 0
  · rw [_quantileSeq_num_intrank mathjsCaps rfl qs p hne h0 h1 hint]
    unfold interpQ
    rw [if_pos (by rw [← jsMod1_eq_fract hidx0]; exact hint)]
  · rw [(_quantileSeq_num_frac mathjsCaps rfl rfl qs p hne h0 h1 hint).1,
      interpCombine_mathjs_num]
    unfold interpQ
    rw [if_neg (by rw [← jsMod1_eq_fract hidx0]; exact hint)]
    rw [jsMod1_eq_fract hidx0]
    congr 2
    ring

theorem quantileSeq_single_num (qs : List ℚ) (p : ℚ) (hne : qs ≠ [])
    (h0 : 0 ≤ p) (h1 : p ≤ 1) :
    quantileSeq mathjsCaps (numArray qs) (.num p) false =
      .ok (.single (.num (interpQ (sortQ qs) (p * ((qs.length : ℚ) - 1))))) := by
  simp only [quantileSeq]
  rw [if_neg (not_lt.2 h0), if_pos h1, _quantileSeq_num_value qs p hne h0 h1]

theorem interpQ_ge_floor (ss : List ℚ) (hs : ss.Sorted (· ≤ ·)) (idx : ℚ)
    (h0 : 0 ≤ idx) (hle : idx ≤ (ss.length : ℚ) - 1) :
    ss.getD ⌊idx⌋.toNat 0 ≤ interpQ ss idx := by
  unfold interpQ
  by_cases hf : idx - ⌊idx⌋ = 0
  · rw [if_pos hf]
  · rw [if_neg hf]
    have hfpos : 0 < idx - ⌊idx⌋ :=
      lt_of_le_of_ne (by linarith [Int.floor_le idx]) (Ne.symm hf)
    have hflt : idx - ⌊idx⌋ < 1 := by linarith [Int.lt_floor_add_one idx]
    have hidxlt : idx < (ss.length : ℚ) - 1 := frac_lt_top hle hf
    have hk1 : ⌊idx⌋.toNat + 1 < ss.length := floor_succ_lt h0 hidxlt
    have hAB := sortQ_getD_mono hs (Nat.le_succ ⌊idx⌋.toNat) hk1
    nlinarith

theorem interpQ_le_floor_succ (ss : List ℚ) (hs : ss.Sorted (· ≤ ·)) (idx : ℚ)
    (hsucc : ⌊idx⌋.toNat + 1 < ss.length) :
    interpQ ss idx ≤ ss.getD (⌊idx⌋.toNat + 1) 0 := by
  unfold interpQ
  by_cases hf : idx - ⌊idx⌋ = 0
  · rw [if_pos hf]
    exact sortQ_getD_mono hs (Nat.le_succ _) hsucc
  · rw [if_neg hf]
    have hfpos : 0 < idx - ⌊idx⌋ :=
      lt_of_le_of_ne (by linarith [Int.floor_le idx]) (Ne.symm hf)
    have hflt : idx - ⌊idx⌋ < 1 := by linarith [Int.lt_floor_add_one idx]
    have hAB := sortQ_getD_mono hs (Nat.le_succ ⌊idx⌋.toNat) hsucc
    nlinarith

theorem interpQ_mono (ss : List ℚ) (hs : ss.Sorted (· ≤ ·)) (i1 i2 : ℚ)
    (h0 : 0 ≤ i1) (h12 : i1 ≤ i2) (hle : i2 ≤ (ss.length : ℚ) - 1) :
    interpQ ss i1 ≤ interpQ ss i2 := by
  have h02 : 0 ≤ i2 := le_trans h0 h12
  have h1le : i1 ≤ (ss.length : ℚ) - 1 := le_trans h12 hle
  have hfl12 : ⌊i1⌋ ≤ ⌊i2⌋ := Int.floor_le_floor h12
  have hf10 : 0 ≤ ⌊i1⌋ := Int.floor_nonneg.2 h0
  rcases lt_or_eq_of_le hfl12 with hlt | heq
  · -- strictly increasing floor: chain through the segment boundary
    have hk2len : ⌊i2⌋.toNat < ss.length := floor_lt_len h02 hle
    have hk1s : ⌊i1⌋.toNat + 1 ≤ ⌊i2⌋.toNat := by omega
    have hk1len : ⌊i1⌋.toNat + 1 < ss.length := by omega
    calc interpQ ss i1 ≤ ss.getD (⌊i1⌋.toNat + 1) 0 :=
          interpQ_le_floor_succ ss hs i1 hk1len
      _ ≤ ss.getD ⌊i2⌋.toNat 0 := sortQ_getD_mono hs hk1s hk2len
      _ ≤ interpQ ss i2 := interpQ_ge_floor ss hs i2 h02 hle
  · -- same segment
    by_cases hf1 : i1 - ⌊i1⌋ = 0
    · have he1 : interpQ ss i1 = ss.getD ⌊i1⌋.toNat 0 := by
        unfold interpQ
        rw [if_pos hf1]
      rw [he1, heq]
      exact interpQ_ge_floor ss hs i2 h02 hle
    · have hf1pos : 0 < i1 - ⌊i1⌋ :=
        lt_of_le_of_ne (by linarith [Int.floor_le i1]) (Ne.symm hf1)
      have hf2pos : 0 < i2 - ⌊i2⌋ := by
        rw [← heq]
        linarith
      have hf2 : i2 - ⌊i2⌋ ≠ 0 := ne_of_gt hf2pos
      have hi2lt : i2 < (ss.length : ℚ) - 1 := frac_lt_top hle hf2
      have hk1len : ⌊i1⌋.toNat + 1 < ss.length := by
        have h5 := floor_succ_lt h02 hi2lt
        omega
      have hAB := sortQ_getD_mono hs (Nat.le_succ ⌊i1⌋.toNat) hk1len
      have hf1lt : i1 - ⌊i1⌋ < 1 := by linarith [Int.lt_floor_add_one i1]
      have hf2lt : i2 - ⌊i2⌋ < 1 := by linarith [Int.lt_floor_add_one i2]
      unfold interpQ
      rw [if_neg hf1, if_neg hf2, ← heq]
      have hff : i1 - ⌊i1⌋ ≤ i2 - ⌊i1⌋ := by linarith
      nlinarith [hAB, hff]

/-! ## C2: exact integer ranks -/

/-- C2: when `p × (len − 1)` is an exact integer `k`, the unsorted call
returns the k-th smallest element of the flattened sequence, independently of
the initial order of the collection; in particular `p = 0` yields the
minimum element and `p = 1` yields the maximum element. -/
theorem quantileSeq_exact_rank (qs : List ℚ) (p : ℚ) (k : ℕ) (hne : qs ≠ [])
    (h0 : 0 ≤ p) (h1 : p ≤ 1)
    (hk : p * ((qs.length : ℚ) - 1) = (k : ℚ)) :
    (∀ qs2 : List ℚ, qs2.Perm qs →
        quantileSeq mathjsCaps (numArray qs2) (.num p) false =
          .ok (.single (.num ((sortQ qs).getD k 0)))) ∧
    (sortQ qs).getD k 0 ∈ qs ∧
    (p = 0 → ∀ x ∈ qs, (sortQ qs).getD k 0 ≤ x) ∧
    (p = 1 → ∀ x ∈ qs, x ≤ (sortQ qs).getD k 0) := by
  have hn : 1 ≤ qs.length := List.length_pos.2 hne
  have hn1 : (0 : ℚ) ≤ (qs.length : ℚ) - 1 := by
    have h2 : (1 : ℚ) ≤ (qs.length : ℚ) := by exact_mod_cast hn
    linarith
  have hidxle : p * ((qs.length : ℚ) - 1) ≤ (qs.length : ℚ) - 1 := by
    calc p * ((qs.length : ℚ) - 1) ≤ 1 * ((qs.length : ℚ) - 1) :=
          mul_le_mul_of_nonneg_right h1 hn1
      _ = (qs.length : ℚ) - 1 := by ring
  have hkle : (k : ℚ) ≤ (qs.length : ℚ) - 1 := hk ▸ hidxle
  have hklen : k < qs.length := by
    have h3 : (k : ℤ) ≤ (qs.length : ℤ) - 1 := by exact_mod_cast hkle
    omega
  have hs := sortQ_sorted qs
  have hsl := sortQ_length qs
  refine ⟨?_, ?_, ?_, ?_⟩
  · intro qs2 hperm
    have hlen2 : qs2.length = qs.length := hperm.length_eq
    have hne2 : qs2 ≠ [] := by
      intro hcon
      rw [hcon] at hlen2
      simp at hlen2
      omega
    rw [quantileSeq_single_num qs2 p hne2 h0 h1, sortQ_eq_of_perm hperm, hlen2]
    unfold interpQ
    rw [hk]
    rw [if_pos (by simp)]
    simp
  · have hmem : (sortQ qs).getD k 0 ∈ sortQ qs := by
      rw [List.getD_eq_getElem _ _ (by rw [hsl]; exact hklen)]
      exact List.getElem_mem _
    exact (sortQ_perm qs).subset hmem
  · intro hp0 x hx
    have hk0 : k = 0 := by
      have h4 : (k : ℚ) = 0 := by rw [← hk, hp0]; ring
      exact_mod_cast h4
    rcases List.mem_iff_getElem.1 ((sortQ_perm qs).mem_iff.2 hx) with ⟨j, hj, rfl⟩
    rw [hk0, ← List.getD_eq_getElem _ 0 hj]
    exact sortQ_getD_mono hs (Nat.zero_le j) hj
  · intro hp1 x hx
    have hk1 : k = qs.length - 1 := by
      have h4 : (k : ℚ) = (qs.length : ℚ) - 1 := by rw [← hk, hp1]; ring
      have h5 : (k : ℤ) = (qs.length : ℤ) - 1 := by exact_mod_cast h4
      omega
    rcases List.mem_iff_getElem.1 ((sortQ_perm qs).mem_iff.2 hx) with ⟨j, hj, rfl⟩
    rw [hk1, ← List.getD_eq_getElem _ 0 hj]
    apply sortQ_getD_mono hs
    · rw [hsl] at hj; omega
    · rw [hsl]; omega

/-- C2 witness: `quantileSeq([3, −1, 5, 7], 1/3)` is the order statistic of
rank 1 of the sequence (its second smallest element). -/
theorem quantileSeq_exact_rank_witness :
    quantileSeq mathjsCaps (numArray [3, -1, 5, 7]) (.num (1 / 3)) false =
      .ok (.single (.num ((sortQ [3, -1, 5, 7]).getD 1 0))) :=
  (quantileSeq_exact_rank [3, -1, 5, 7] (1 / 3) 1 (by simp) (by norm_num)
    (by norm_num) (by norm_num)).1 [3, -1, 5, 7] (List.Perm.refl _)

/-! ## C6: monotonicity in the probability -/

/-- C6: for a fixed collection, a larger probability never yields a smaller
quantile: `p1 < p2` implies `quantileSeq(S, p1) ≤ quantileSeq(S, p2)`. -/
theorem quantileSeq_monotone (qs : List ℚ) (p1 p2 : ℚ) (hne : qs ≠ [])
    (h0 : 0 ≤ p1) (h12 : p1 < p2) (h2 : p2 ≤ 1) :
    ∃ v1 v2 : ℚ,
      quantileSeq mathjsCaps (numArray qs) (.num p1) false =
        .ok (.single (.num v1)) ∧
      quantileSeq mathjsCaps (numArray qs) (.num p2) false =
        .ok (.single (.num v2)) ∧
      v1 ≤ v2 := by
  have hn : 1 ≤ qs.length := List.length_pos.2 hne
  have hn1 : (0 : ℚ) ≤ (qs.length : ℚ) - 1 := by
    have h3 : (1 : ℚ) ≤ (qs.length : ℚ) := by exact_mod_cast hn
    linarith
  have h01 : p1 ≤ 1 := le_of_lt (lt_of_lt_of_le h12 h2)
  have h02 : 0 ≤ p2 := le_trans h0 (le_of_lt h12)
  refine ⟨_, _, quantileSeq_single_num qs p1 hne h0 h01,
    quantileSeq_single_num qs p2 hne h02 h2, ?_⟩
  apply interpQ_mono (sortQ qs) (sortQ_sorted qs)
  · exact mul_nonneg h0 hn1
  · exact mul_le_mul_of_nonneg_right (le_of_lt h12) hn1
  · rw [sortQ_length]
    calc p2 * ((qs.length : ℚ) - 1) ≤ 1 * ((qs.length : ℚ) - 1) :=
          mul_le_mul_of_nonneg_right h2 hn1
      _ = (qs.length : ℚ) - 1 := by ring

/-- C6 witness: the monotonicity theorem applied at `S = [3, −1, 5, 7]`,
`p1 = 1/3 < p2 = 2/3`. -/
theorem quantileSeq_monotone_witness :
    ∃ v1 v2 : ℚ,
      quantileSeq mathjsCaps (numArray [3, -1, 5, 7]) (.num (1 / 3)) false =
        .ok (.single (.num v1)) ∧
      quantileSeq mathjsCaps (numArray [3, -1, 5, 7]) (.num (2 / 3)) false =
        .ok (.single (.num v2)) ∧
      v1 ≤ v2 :=
  quantileSeq_monotone [3, -1, 5, 7] (1 / 3) (2 / 3) (by simp) (by norm_num)
    (by norm_num) (by norm_num)

/-! ## C1: fractional ranks interpolate via the capability operations -/

/-- C1: at a fractional rank `idx = p × (len − 1)` with `k = ⌊idx⌋` and
`f = idx − k`, the unsorted call returns
`add(multiply(a_k, 1 − f), multiply(a_{k+1}, f))` computed with the injected
`add`/`multiply` capability operations (the theorem holds for *arbitrary*
injected `add` and `multiply`, so no native arithmetic can be involved),
where `a_k`, `a_{k+1}` are the k-th and (k+1)-th smallest elements of the
flattened sequence; and in that path the left endpoint `a_k` is produced by
the maximum-tracking scan (by `compare`) over positions `0..k` of the
partitioned flat sequence after selecting rank `k + 1`. -/
theorem quantileSeq_frac_interpolation
    (A M : MValue → MValue → Except MError MValue) (qs : List ℚ) (p : ℚ)
    (hne : qs ≠ []) (h0 : 0 ≤ p) (h1 : p ≤ 1)
    (hfrac : jsMod1 (p * ((qs.length : ℚ) - 1)) ≠ 0) :
    quantileSeq ⟨A, M, mcompare, partitionSelect⟩ (numArray qs) (.num p) false =
      Except.map QResult.single
        (interpCombine ⟨A, M, mcompare, partitionSelect⟩
          (.num ((sortQ qs).getD (⌊p * ((qs.length : ℚ) - 1)⌋).toNat 0))
          (.num ((sortQ qs).getD ((⌊p * ((qs.length : ℚ) - 1)⌋).toNat + 1) 0))
          (.num (1 - jsMod1 (p * ((qs.length : ℚ) - 1))))
          (.num (jsMod1 (p * ((qs.length : ℚ) - 1))))) ∧
    scanLeftMax ⟨A, M, mcompare, partitionSelect⟩ ((sortQ qs).map MValue.num)
        (⌊p * ((qs.length : ℚ) - 1)⌋).toNat =
      .ok (.num ((sortQ qs).getD (⌊p * ((qs.length : ℚ) - 1)⌋).toNat 0)) := by
  have hcore := _quantileSeq_num_frac ⟨A, M, mcompare, partitionSelect⟩ rfl rfl
    qs p hne h0 h1 hfrac
  refine ⟨?_, hcore.2⟩
  simp only [quantileSeq]
  rw [if_neg (not_lt.2 h0), if_pos h1, hcore.1]
  cases interpCombine ⟨A, M, mcompare, partitionSelect⟩
      (.num ((sortQ qs).getD (⌊p * ((qs.length : ℚ) - 1)⌋).toNat 0))
      (.num ((sortQ qs).getD ((⌊p * ((qs.length : ℚ) - 1)⌋).toNat + 1) 0))
      (.num (1 - jsMod1 (p * ((qs.length : ℚ) - 1))))
      (.num (jsMod1 (p * ((qs.length : ℚ) - 1)))) <;> rfl

/-- C1 witness: with the concrete mathjs capabilities on `[3, −1, 5, 7]` at
`p = 1/2` (rank 1.5), interpolating between the order statistics 3 and 5
with weight 1/2 — both conjuncts applied at that input. -/
theorem quantileSeq_frac_interpolation_witness :
    quantileSeq ⟨madd, mmultiply, mcompare, partitionSelect⟩
        (numArray [3, -1, 5, 7]) (.num (1 / 2)) false =
      Except.map QResult.single
        (interpCombine ⟨madd, mmultiply, mcompare, partitionSelect⟩
          (.num ((sortQ [3, -1, 5, 7]).getD
            (⌊(1 / 2 : ℚ) * ((([3, -1, 5, 7] : List ℚ).length : ℚ) - 1)⌋).toNat 0))
          (.num ((sortQ [3, -1, 5, 7]).getD
            ((⌊(1 / 2 : ℚ) * ((([3, -1, 5, 7] : List ℚ).length : ℚ) - 1)⌋).toNat + 1) 0))
          (.num (1 - jsMod1 ((1 / 2 : ℚ) * ((([3, -1, 5, 7] : List ℚ).length : ℚ) - 1))))
          (.num (jsMod1 ((1 / 2 : ℚ) * ((([3, -1, 5, 7] : List ℚ).length : ℚ) - 1))))) :=
  (quantileSeq_frac_interpolation madd mmultiply [3, -1, 5, 7] (1 / 2) (by simp)
    (by norm_num) (by norm_num)
    (by with_unfolding_all decide)).1

/-! ## C10: kind validation of returned values -/

theorem validate_ok {x y : MValue} (h : validate x = .ok y) : isSupported y = true := by
  unfold validate at h
  by_cases hs : isSupported x
  · rw [if_pos hs] at h
    injection h with h2
    rw [← h2]
    exact hs
  · rw [if_neg hs] at h
    exact absurd h (by simp)

theorem validate_ok_self {x y : MValue} (h : validate x = .ok y) :
    isSupported x = true := by
  unfold validate at h
  by_cases hs : isSupported x
  · exact hs
  · rw [if_neg hs] at h
    exact absurd h (by simp)

theorem madd_ok_supported {a b v : MValue} (h : madd a b = .ok v) :
    isSupported v = true := by
  cases a <;> cases b <;> simp only [madd] at h <;>
    first
      | (injection h with h2; rw [← h2]; rfl)
      | (split at h <;>
          first
            | (injection h with h2; rw [← h2]; rfl)
            | exact absurd h (by simp))
      | exact absurd h (by simp)

theorem interpFinish_ok_supported {left right w1 w2 v : MValue}
    (h : interpFinish mathjsCaps left right w1 w2 = .ok v) :
    isSupported v = true := by
  simp only [interpFinish, interpCombine, mathjsCaps] at h
  split at h
  · exact absurd h (by simp)
  split at h
  · exact absurd h (by simp)
  split at h
  · exact absurd h (by simp)
  split at h
  · exact absurd h (by simp)
  exact madd_ok_supported h

/-- C10: every value returned as an exact-rank quantile and every
interpolation endpoint passes kind validation first — a successful scalar
call can only produce a supported kind (number, BigNumber or Unit), and a
call whose consulted element positions hold any other kind of value raises a
type error instead of returning that value, in the sorted path (where the
`validate` check fires) as well as the unsorted path (where the comparison
capability of the selection primitive, or `validate` when no comparison is
needed, raises it). -/
theorem quantileSeq_validated_kinds :
    (∀ v, isSupported v = false →
        validate v = .error (.typeError "Unexpected type of argument in function validate")) ∧
    (∀ (d : List MColl) (pv : ProbVal) (s : Bool) (v : MValue),
        _quantileSeq mathjsCaps d pv s = .ok v → isSupported v = true) ∧
    (_quantileSeq mathjsCaps [.leaf (.num 1), .leaf (.other "s"), .leaf (.num 3)]
        (.pnum (1 / 2)) true =
      .error (.typeError "Unexpected type of argument in function validate")) ∧
    (_quantileSeq mathjsCaps [.leaf (.other "s"), .leaf (.num 2)]
        (.pnum (1 / 2)) true =
      .error (.typeError "Unexpected type of argument in function validate")) ∧
    (_quantileSeq mathjsCaps [.leaf (.other "s")] (.pnum 0) false =
      .error (.typeError "Unexpected type of argument in function validate")) ∧
    (_quantileSeq mathjsCaps [.leaf (.num 1), .leaf (.other "s"), .leaf (.num 3)]
        (.pnum (1 / 2)) false =
      .error (.typeError "Unexpected type of argument in function compare")) := by
  refine ⟨?_, ?_, by with_unfolding_all decide, by with_unfolding_all decide,
    by with_unfolding_all decide, by with_unfolding_all decide⟩
  · intro v hv
    unfold validate
    rw [if_neg (by simp [hv])]
  · intro d pv s v hok
    simp only [_quantileSeq] at hok
    split at hok
    · exact absurd hok (by simp)
    split at hok
    · -- native-number probability
      split at hok
      · split at hok
        · split at hok
          · exact absurd hok (by simp)
          · rename_i heq
            injection hok with h2
            rw [← h2]
            exact validate_ok heq
        · split at hok
          · exact absurd hok (by simp)
          · split at hok
            · exact absurd hok (by simp)
            · rename_i heq
              injection hok with h2
              rw [← h2]
              exact validate_ok_self heq
      · split at hok
        · exact interpFinish_ok_supported hok
        · split at hok
          · exact absurd hok (by simp)
          · split at hok
            · exact absurd hok (by simp)
            · exact interpFinish_ok_supported hok
    · -- BigNumber probability
      split at hok
      · split at hok
        · split at hok
          · exact absurd hok (by simp)
          · rename_i heq
            injection hok with h2
            rw [← h2]
            exact validate_ok heq
        · split at hok
          · exact absurd hok (by simp)
          · split at hok
            · exact absurd hok (by simp)
            · rename_i heq
              injection hok with h2
              rw [← h2]
              exact validate_ok_self heq
      · split at hok
        · exact interpFinish_ok_supported hok
        · split at hok
          · exact absurd hok (by simp)
          · split at hok
            · exact absurd hok (by simp)
            · exact interpFinish_ok_supported hok

/-- C10 witness: a successful scalar call yields a supported kind —
`quantileSeq` on `[1, 2, 3]` at `p = 1/2` returns the number 2, which is of
a supported kind. -/
theorem quantileSeq_validated_kinds_witness :
    isSupported (.num 2) = true :=
  quantileSeq_validated_kinds.2.1 (numArray [1, 2, 3]) (.pnum (1 / 2)) false
    (.num 2) (by with_unfolding_all decide)
